import Mathlib

/-!
Verification of the `everybit` packed bit-array library
(`src/everybit/bitarray.c`).

The C code is shallowly embedded: the struct `bitarray` becomes a Lean
structure whose buffer is a list of bytes (naturals; every in-range byte is
`< 256`, recorded by the well-formedness predicate `bitarray_wf`); `size_t`
values become `Nat`, `ssize_t` values become `Int`.  `char` is signed and
`>>` on a negative `char` is an arithmetic shift on the target platform
(gcc / x86-64 Linux); this is captured exactly by `asr8`.  The `printf`
tracing in `rotate_single` has no effect on the stored bits and is dropped.
Each C function keeps its name.
-/

/-- The C `struct bitarray`: a bit count and the packed byte buffer. -/
structure bitarray where
  bit_sz : Nat
  buf : List Nat
deriving DecidableEq, Repr

/-- `bitarray_new`: a zeroed buffer of `bit_sz / 8 + (bit_sz % 8 == 0 ? 0 : 1)`
bytes (the C `calloc` call). -/
def bitarray_new (bit_sz : Nat) : bitarray :=
  { bit_sz := bit_sz
    buf := List.replicate (bit_sz / 8 + (if bit_sz % 8 = 0 then 0 else 1)) 0 }

/-- `bitarray_get_bit_sz`. -/
def bitarray_get_bit_sz (ba : bitarray) : Nat := ba.bit_sz

/-- `bitmask`: `1 << (bit_index % 8)`. -/
def bitmask (bit_index : Nat) : Nat := 1 <<< (bit_index % 8)

/-- `bitarray_get`: `(buf[bit_index / 8] & bitmask(bit_index)) ? true : false`.
The C caller contract (`assert`) is `bit_index < bit_sz`; it appears as a
hypothesis of the theorems. -/
def bitarray_get (ba : bitarray) (bit_index : Nat) : Bool :=
  (ba.buf.getD (bit_index / 8) 0 &&& bitmask bit_index) != 0

/-- `bitarray_set`:
`buf[i/8] = (buf[i/8] & ~bitmask(i)) | (value ? bitmask(i) : 0)`.
The store is to a `char`, so only the low 8 bits of `~bitmask(i)` matter;
`255 ^^^ bitmask i` is that byte. -/
def bitarray_set (ba : bitarray) (bit_index : Nat) (value : Bool) : bitarray :=
  { ba with
    buf := ba.buf.set (bit_index / 8)
      ((ba.buf.getD (bit_index / 8) 0 &&& (255 ^^^ bitmask bit_index)) |||
        (if value then bitmask bit_index else 0)) }

/-- `modulo`: `((n % m) + m) % m` on `ssize_t`, where the C `%` is the
truncating remainder (`Int.tmod`), finally cast to `size_t` (the code
asserts the result is nonnegative, so `toNat` is exact). -/
def modulo (n : Int) (m : Nat) : Nat :=
  ((n.tmod m + m).tmod m).toNat

/-- `get_shift`: `result = modulo(bit_right_amount, bit_length);
if (result < 0) result += bit_length; return result` (as `ssize_t`). -/
def get_shift (bit_length : Nat) (bit_right_amount : Int) : Int :=
  let result : Int := modulo bit_right_amount bit_length
  if result < 0 then result + bit_length else result

/-- `get_char_index`: `bit_offset / 8`. -/
def get_char_index (bit_offset : Nat) : Nat := bit_offset / 8

/-- `get_end_char_index`: `get_char_index(bit_offset + bit_length - 1)`. -/
def get_end_char_index (bit_offset bit_length : Nat) : Nat :=
  get_char_index (bit_offset + bit_length - 1)

/-- `get_end_bit`: `(8 - (bit_offset + bit_length) % 8) % 8`. -/
def get_end_bit (bit_offset bit_length : Nat) : Nat :=
  (8 - (bit_offset + bit_length) % 8) % 8

/-- The static `left_mask` table. -/
def left_mask : List Nat := [0xFF, 0x7F, 0x3F, 0x1F, 0x0F, 0x07, 0x03, 0x01, 0x00]

/-- The static `right_mask` table. -/
def right_mask : List Nat := [0xFF, 0xFE, 0xFC, 0xF8, 0xF0, 0xE0, 0xC0, 0x80, 0x00]

/-- `clean_left`: `c & left_mask[bit_count]`. -/
def clean_left (c bit_count : Nat) : Nat := c &&& left_mask.getD bit_count 0

/-- `clean_right`: `c & right_mask[bit_count]`. -/
def clean_right (c bit_count : Nat) : Nat := c &&& right_mask.getD bit_count 0

/-- The C statement `c1 = c1 >> shiftBit` where `c1` has type `char`:
on the target platform `char` is signed, so a byte value `v ≥ 128`
(a negative `char`) is shifted arithmetically, dragging in sign bits.
Sign-extending to 16 bits (`v + 0xFF00`), shifting, and truncating to the
low byte reproduces this exactly for `s ≤ 8`. -/
def asr8 (v s : Nat) : Nat :=
  if v < 128 then v >>> s else ((v + 65280) >>> s) % 256

/-- The byte computation inside `rotate_single`, acting on the byte `c`
fetched from the buffer.  Straight-line translation of the function body
(the `printf` calls carry no state).  `c2 << left_shift` is performed on
`unsigned char` with an explicit `% 256` in the C source. -/
def rotate_single_byte (c beginBit endBit shiftBit : Nat) : Nat :=
  let c1a := clean_left c endBit
  let c1b := clean_right c1a (beginBit + shiftBit)
  let c1 := asr8 c1b shiftBit
  let c2a := clean_left c (8 - (beginBit + shiftBit))
  let c2b := clean_right c2a beginBit
  let left_shift := 8 - beginBit - shiftBit - endBit
  let c2 := (c2b <<< left_shift) % 256
  let c3 := clean_left c (8 - beginBit)
  let c4 := clean_right c (8 - endBit)
  c1 ||| c2 ||| c3 ||| c4

/-- `rotate_single`: reads `buf[charIndex]`, rewrites it as above, and stores
it back. -/
def rotate_single (ba : bitarray) (charIndex beginBit endBit shiftBit : Nat) :
    bitarray :=
  { ba with
    buf := ba.buf.set charIndex
      (rotate_single_byte (ba.buf.getD charIndex 0) beginBit endBit shiftBit) }

/-- `bitarray_rotate`.  The early `return`s become identity branches.
`shift` is provably nonnegative (`get_shift_eq_emod` below), so the
`ssize_t` quantities `shift % 8` and `shiftBit` embed via `Int.tmod` and
`Int.toNat` without loss.  The unused `shiftByte = shift / 8` of the C code
is omitted. -/
def bitarray_rotate (ba : bitarray) (bit_offset bit_length : Nat)
    (bit_right_amount : Int) : bitarray :=
  if bit_offset + bit_length > ba.bit_sz then ba
  else if bit_length = 0 ∨ bit_length = 1 then ba
  else
    let shift : Int := get_shift bit_length bit_right_amount
    if shift = 0 then ba
    else
      let shiftBit : Nat := (shift.tmod 8).toNat
      let beginCharIndex := get_char_index bit_offset
      let endCharIndex := get_char_index (bit_offset + bit_length - 1)
      let beginBit := bit_offset % 8
      let endBit := get_end_bit bit_offset bit_length
      if beginCharIndex = endCharIndex then
        rotate_single ba beginCharIndex beginBit endBit shiftBit
      else ba

/-- The `for` loop of `bitarray_rotate_left_one`:
`for (i = bit_offset; i + 1 < bit_offset + bit_length; i++)
  set(i, get(i + 1));`
unrolled on the remaining iteration count (`bit_length - 1`). -/
def rotate_left_one_loop (ba : bitarray) (i fuel : Nat) : bitarray :=
  match fuel with
  | 0 => ba
  | Nat.succ f =>
    rotate_left_one_loop (bitarray_set ba i (bitarray_get ba (i + 1))) (i + 1) f

/-- `bitarray_rotate_left_one` (callers guarantee `bit_length ≥ 1`,
so the loop runs `bit_length - 1` times and the final store is at
`bit_offset + bit_length - 1`). -/
def bitarray_rotate_left_one (ba : bitarray) (bit_offset bit_length : Nat) :
    bitarray :=
  let first_bit := bitarray_get ba bit_offset
  let ba2 := rotate_left_one_loop ba bit_offset (bit_length - 1)
  bitarray_set ba2 (bit_offset + bit_length - 1) first_bit

/-- `bitarray_rotate_left`: `bit_left_amount` single left rotations. -/
def bitarray_rotate_left (ba : bitarray) (bit_offset bit_length bit_left_amount : Nat) :
    bitarray :=
  match bit_left_amount with
  | 0 => ba
  | Nat.succ a =>
    bitarray_rotate_left (bitarray_rotate_left_one ba bit_offset bit_length)
      bit_offset bit_length a

/-- `bitarray_rotate_old`: the bit-by-bit reference rotation.  Its `assert`
(`bit_offset + bit_length <= bit_sz`) appears as a hypothesis of the
theorems. -/
def bitarray_rotate_old (ba : bitarray) (bit_offset bit_length : Nat)
    (bit_right_amount : Int) : bitarray :=
  if bit_length = 0 then ba
  else bitarray_rotate_left ba bit_offset bit_length
    (modulo (-bit_right_amount) bit_length)

/-- Well-formedness of a `bitarray` as maintained by the C code: the buffer
has exactly `ceil(bit_sz / 8)` bytes and each byte fits in 8 bits. -/
def bitarray_wf (ba : bitarray) : Prop :=
  ba.buf.length = ba.bit_sz / 8 + (if ba.bit_sz % 8 = 0 then 0 else 1) ∧
    ∀ b ∈ ba.buf, b < 256

instance (ba : bitarray) : Decidable (bitarray_wf ba) := by
  unfold bitarray_wf; infer_instance

/-! ### Arithmetic facts about `modulo` and `get_shift` -/

theorem modulo_eq_emod (n : Int) (m : Nat) (hm : 0 < m) :
    (modulo n m : Int) = n % (m : Int) := by
  have hm' : (0 : Int) < (m : Int) := by exact_mod_cast hm
  have hcong : n.tmod (m : Int) % (m : Int) = n % (m : Int) := by
    rw [Int.tmod_def]
    have h : n - (m : Int) * n.tdiv m = n + (m : Int) * (-n.tdiv m) := by ring
    rw [h, Int.add_mul_emod_self_left]
  have hub : n.tmod (m : Int) < (m : Int) := Int.tmod_lt_of_pos n hm'
  have hlb : -(m : Int) < n.tmod (m : Int) := by
    rcases le_or_lt 0 n with hn | hn
    · have := Int.tmod_nonneg (m : Int) hn
      omega
    · have hneg : n.tmod (m : Int) = -((-n).tmod (m : Int)) := by
        rw [Int.tmod_def, Int.tmod_def, Int.neg_tdiv]
        ring
      have h1 : (-n).tmod (m : Int) < (m : Int) := Int.tmod_lt_of_pos _ hm'
      omega
  have hnn : (0 : Int) ≤ n.tmod (m : Int) + (m : Int) := by omega
  unfold modulo
  rw [Int.tmod_eq_emod hnn (by omega)]
  have h2 : (n.tmod (m : Int) + (m : Int)) % (m : Int) = n % (m : Int) := by
    have h : n.tmod (m : Int) + (m : Int) =
        n.tmod (m : Int) + (m : Int) * 1 := by ring
    rw [h, Int.add_mul_emod_self_left, hcong]
  rw [h2, Int.toNat_of_nonneg (Int.emod_nonneg n (by omega))]

theorem modulo_lt (n : Int) (m : Nat) (hm : 0 < m) : modulo n m < m := by
  have h := modulo_eq_emod n m hm
  have h2 : (n % (m : Int)) < (m : Int) := Int.emod_lt_of_pos n (by exact_mod_cast hm)
  omega

theorem get_shift_eq (bit_length : Nat) (amt : Int) :
    get_shift bit_length amt = ((modulo amt bit_length : Nat) : Int) := by
  unfold get_shift
  simp

theorem get_shift_eq_emod (bit_length : Nat) (amt : Int) (h : 0 < bit_length) :
    get_shift bit_length amt = amt % (bit_length : Int) := by
  rw [get_shift_eq, modulo_eq_emod amt bit_length h]

theorem modulo_mul_self (k : Int) (m : Nat) (hm : 0 < m) :
    modulo (k * m) m = 0 := by
  have h := modulo_eq_emod (k * m) m hm
  rw [Int.mul_emod_left] at h
  omega

/-! ### Bytes, bits, and the storage operations -/

theorem bitmask_eq (i : Nat) : bitmask i = 2 ^ (i % 8) := by
  unfold bitmask
  rw [Nat.shiftLeft_eq, Nat.one_mul]

theorem get_eq_testBit (ba : bitarray) (i : Nat) :
    bitarray_get ba i = (ba.buf.getD (i / 8) 0).testBit (i % 8) := by
  unfold bitarray_get
  rw [bitmask_eq, Nat.and_two_pow]
  cases h : (ba.buf.getD (i / 8) 0).testBit (i % 8) <;> simp [h]

theorem getD_set_self (l : List Nat) (i a : Nat) (h : i < l.length) :
    (l.set i a).getD i 0 = a := by
  rw [List.getD_eq_getElem?_getD, List.getElem?_set_self h]
  rfl

theorem getD_set_ne (l : List Nat) {i j : Nat} (a : Nat) (h : i ≠ j) :
    (l.set i a).getD j 0 = l.getD j 0 := by
  rw [List.getD_eq_getElem?_getD, List.getElem?_set_ne h,
    ← List.getD_eq_getElem?_getD]

theorem set_bit_sz (ba : bitarray) (i : Nat) (v : Bool) :
    (bitarray_set ba i v).bit_sz = ba.bit_sz := rfl

theorem set_buf_length (ba : bitarray) (i : Nat) (v : Bool) :
    (bitarray_set ba i v).buf.length = ba.buf.length := by
  unfold bitarray_set
  exact List.length_set ba.buf _ _

theorem testBit_255 {k : Nat} (hk : k < 8) : Nat.testBit 255 k = true := by
  revert k
  decide

/-- The byte written by `bitarray_set`, bit by bit. -/
theorem set_byte_testBit (c m k : Nat) (v : Bool) (hm : m < 8) (hk : k < 8) :
    ((c &&& (255 ^^^ 2 ^ m)) ||| (if v then 2 ^ m else 0)).testBit k =
      if k = m then v else c.testBit k := by
  have h255 : Nat.testBit 255 k = true := testBit_255 hk
  rcases eq_or_ne k m with h | h
  · subst h
    cases v <;>
      simp [Nat.testBit_or, Nat.testBit_and, Nat.testBit_xor, h255,
        Nat.testBit_two_pow_self]
  · have hpow : (2 ^ m).testBit k = false := Nat.testBit_two_pow_of_ne (Ne.symm h)
    cases v <;>
      simp [Nat.testBit_or, Nat.testBit_and, Nat.testBit_xor, h255, hpow, h]

theorem get_set_same (ba : bitarray) (i : Nat) (v : Bool)
    (h : i / 8 < ba.buf.length) :
    bitarray_get (bitarray_set ba i v) i = v := by
  rw [get_eq_testBit]
  unfold bitarray_set
  simp only
  rw [getD_set_self _ _ _ h, bitmask_eq,
    set_byte_testBit _ _ _ _ (Nat.mod_lt _ (by norm_num))
      (Nat.mod_lt _ (by norm_num))]
  simp

theorem get_set_other (ba : bitarray) (i : Nat) (v : Bool) (j : Nat)
    (h : j ≠ i) :
    bitarray_get (bitarray_set ba i v) j = bitarray_get ba j := by
  rw [get_eq_testBit, get_eq_testBit]
  unfold bitarray_set
  simp only
  rcases eq_or_ne (i / 8) (j / 8) with hb | hb
  · rcases Nat.lt_or_ge (i / 8) ba.buf.length with hlen | hlen
    · rw [← hb, getD_set_self _ _ _ hlen, bitmask_eq,
        set_byte_testBit _ _ _ _ (Nat.mod_lt _ (by norm_num))
          (Nat.mod_lt _ (by norm_num))]
      have hne : j % 8 ≠ i % 8 := by
        intro hmod
        apply h
        have hdi := Nat.div_add_mod i 8
        have hdj := Nat.div_add_mod j 8
        omega
      rw [if_neg hne, hb]
    · rw [List.set_eq_of_length_le hlen]
  · rw [getD_set_ne _ _ hb]

/-! ### Bit-level behaviour of the mask tables and of `asr8` -/

theorem left_mask_testBit (k i : Nat) (hk : k ≤ 8) :
    (left_mask.getD k 0).testBit i = decide (i < 8 - k) := by
  rcases Nat.lt_or_ge i 8 with hi | hi
  · have h : ∀ k, k ≤ 8 → ∀ i, i < 8 →
        (left_mask.getD k 0).testBit i = decide (i < 8 - k) := by decide
    exact h k hk i hi
  · have hle : ∀ k, k ≤ 8 → left_mask.getD k 0 ≤ 255 := by decide
    have h1 : (left_mask.getD k 0).testBit i = false := by
      apply Nat.testBit_lt_two_pow
      calc left_mask.getD k 0 ≤ 255 := hle k hk
        _ < 2 ^ 8 := by norm_num
        _ ≤ 2 ^ i := Nat.pow_le_pow_right (by norm_num) hi
    rw [h1, eq_comm, decide_eq_false_iff_not]
    omega

theorem right_mask_testBit (k i : Nat) (hk : k ≤ 8) :
    (right_mask.getD k 0).testBit i = (decide (k ≤ i) && decide (i < 8)) := by
  rcases Nat.lt_or_ge i 8 with hi | hi
  · have h : ∀ k, k ≤ 8 → ∀ i, i < 8 →
        (right_mask.getD k 0).testBit i = (decide (k ≤ i) && decide (i < 8)) := by
      decide
    exact h k hk i hi
  · have hle : ∀ k, k ≤ 8 → right_mask.getD k 0 ≤ 255 := by decide
    have h1 : (right_mask.getD k 0).testBit i = false := by
      apply Nat.testBit_lt_two_pow
      calc right_mask.getD k 0 ≤ 255 := hle k hk
        _ < 2 ^ 8 := by norm_num
        _ ≤ 2 ^ i := Nat.pow_le_pow_right (by norm_num) hi
    rw [h1, decide_eq_false (show ¬ i < 8 from by omega)]
    simp

theorem clean_left_testBit (c k i : Nat) (hk : k ≤ 8) :
    (clean_left c k).testBit i = (c.testBit i && decide (i < 8 - k)) := by
  unfold clean_left
  rw [Nat.testBit_and, left_mask_testBit k i hk]

theorem clean_right_testBit (c k i : Nat) (hk : k ≤ 8) :
    (clean_right c k).testBit i =
      (c.testBit i && decide (k ≤ i) && decide (i < 8)) := by
  unfold clean_right
  rw [Nat.testBit_and, right_mask_testBit k i hk, Bool.and_assoc]

theorem right_mask_le (k : Nat) : right_mask.getD k 0 ≤ 255 := by
  rcases Nat.lt_or_ge k 9 with hk | hk
  · have h : ∀ k, k < 9 → right_mask.getD k 0 ≤ 255 := by decide
    exact h k hk
  · rw [List.getD_eq_default]
    · omega
    · simpa [right_mask] using hk

theorem clean_right_le (c k : Nat) : clean_right c k ≤ 255 :=
  Nat.le_trans Nat.and_le_right (right_mask_le k)

theorem left_mask_le (k : Nat) : left_mask.getD k 0 ≤ 255 := by
  rcases Nat.lt_or_ge k 9 with hk | hk
  · have h : ∀ k, k < 9 → left_mask.getD k 0 ≤ 255 := by decide
    exact h k hk
  · rw [List.getD_eq_default]
    · omega
    · simpa [left_mask] using hk

theorem clean_left_le (c k : Nat) : clean_left c k ≤ 255 :=
  Nat.le_trans Nat.and_le_right (left_mask_le k)

theorem asr8_lt (v s : Nat) : asr8 v s < 256 := by
  unfold asr8
  split
  · rw [Nat.shiftRight_eq_div_pow]
    have := Nat.div_le_self v (2 ^ s)
    omega
  · exact Nat.mod_lt _ (by norm_num)

theorem asr8_of_lt (v s : Nat) (h : v < 128) : asr8 v s = v >>> s :=
  if_pos h

theorem asr8_testBit (v s i : Nat) (hv : v < 256) (h : i + s < 8) :
    (asr8 v s).testBit i = v.testBit (s + i) := by
  unfold asr8
  split
  · exact Nat.testBit_shiftRight v
  · have h256 : (256 : Nat) = 2 ^ 8 := by norm_num
    rw [h256, Nat.testBit_mod_two_pow, Nat.testBit_shiftRight,
      decide_eq_true (show i < 8 from by omega), Bool.true_and]
    have hmod : (v + 65280) % 256 = v := by
      have h1 : (v + 255 * 256) % 256 = v % 256 :=
        Nat.add_mul_mod_self_right v 255 256
      have h2 : v % 256 = v := Nat.mod_eq_of_lt hv
      omega
    have hsw : (v + 65280).testBit (s + i) = ((v + 65280) % 256).testBit (s + i) := by
      rw [h256, Nat.testBit_mod_two_pow, decide_eq_true (show s + i < 8 from by omega),
        Bool.true_and]
    rw [hsw, hmod]

theorem lt_128_of_testBit_7 {v : Nat} (hv : v < 256) (h7 : v.testBit 7 = false) :
    v < 128 := by
  rw [Nat.testBit_to_div_mod] at h7
  norm_num at h7
  omega

/-! ### Per-bit characterisation of `rotate_single_byte` -/

theorem rsb_X_testBit (c b e s j : Nat) (he : e ≤ 8) (hbs : b + s ≤ 8) :
    (clean_right (clean_left c e) (b + s)).testBit j =
      (c.testBit j && decide (j < 8 - e) && decide (b + s ≤ j) && decide (j < 8)) := by
  rw [clean_right_testBit _ _ _ hbs, clean_left_testBit _ _ _ he]

theorem rsb_Y_testBit (c b s j : Nat) (hbs : b + s ≤ 8) :
    (clean_right (clean_left c (8 - (b + s))) b).testBit j =
      (c.testBit j && decide (j < b + s) && decide (b ≤ j) && decide (j < 8)) := by
  rw [clean_right_testBit _ _ _ (by omega : b ≤ 8),
    clean_left_testBit _ _ _ (by omega : 8 - (b + s) ≤ 8)]
  have h : 8 - (8 - (b + s)) = b + s := by omega
  rw [h]

theorem rsb_X_lt (c b e s : Nat) : clean_right (clean_left c e) (b + s) < 256 := by
  have := clean_right_le (clean_left c e) (b + s)
  omega

/-- Bits outside the subrange of the byte (`k < beginBit` or `k ≥ 8 - endBit`)
are written back unchanged by `rotate_single_byte`. -/
theorem rotate_single_byte_testBit_out (c b e s k : Nat) (hbes : b + e + s ≤ 7)
    (hs : 1 ≤ s) (hk8 : k < 8) (hk : k < b ∨ 8 - e ≤ k) :
    (rotate_single_byte c b e s).testBit k = c.testBit k := by
  have he8 : e ≤ 8 := by omega
  have hbs8 : b + s ≤ 8 := by omega
  have hX256 := rsb_X_lt c b e s
  have h256 : (256 : Nat) = 2 ^ 8 := by norm_num
  simp only [rotate_single_byte, Nat.testBit_or]
  rcases hk with hk | hk
  · have hA : (asr8 (clean_right (clean_left c e) (b + s)) s).testBit k = false := by
      rw [asr8_testBit _ _ _ hX256 (by omega), rsb_X_testBit c b e s (s + k) he8 hbs8,
        decide_eq_false (show ¬ (b + s ≤ s + k) from by omega)]
      simp
    have hB : ((clean_right (clean_left c (8 - (b + s))) b <<< (8 - b - s - e)) % 256).testBit k
        = false := by
      rw [h256, Nat.testBit_mod_two_pow, Nat.testBit_shiftLeft]
      by_cases hd : 8 - b - s - e ≤ k
      · rw [rsb_Y_testBit c b s _ hbs8,
          decide_eq_false (show ¬ (b ≤ k - (8 - b - s - e)) from by omega)]
        simp
      · rw [decide_eq_false (show ¬ (k ≥ 8 - b - s - e) from hd)]
        simp
    have hC : (clean_left c (8 - b)).testBit k = c.testBit k := by
      rw [clean_left_testBit _ _ _ (by omega)]
      have h : 8 - (8 - b) = b := by omega
      rw [h, decide_eq_true hk]
      simp
    have hD : (clean_right c (8 - e)).testBit k = false := by
      rw [clean_right_testBit _ _ _ (by omega),
        decide_eq_false (show ¬ (8 - e ≤ k) from by omega)]
      simp
    rw [hA, hB, hC, hD]
    simp
  · have hX7 : (clean_right (clean_left c e) (b + s)).testBit 7 = false := by
      rw [rsb_X_testBit c b e s 7 he8 hbs8,
        decide_eq_false (show ¬ (7 < 8 - e) from by omega)]
      simp
    have hX128 := lt_128_of_testBit_7 hX256 hX7
    have hA : (asr8 (clean_right (clean_left c e) (b + s)) s).testBit k = false := by
      rw [asr8_of_lt _ _ hX128, Nat.testBit_shiftRight,
        rsb_X_testBit c b e s (s + k) he8 hbs8,
        decide_eq_false (show ¬ (s + k < 8 - e) from by omega)]
      simp
    have hB : ((clean_right (clean_left c (8 - (b + s))) b <<< (8 - b - s - e)) % 256).testBit k
        = false := by
      rw [h256, Nat.testBit_mod_two_pow, Nat.testBit_shiftLeft,
        rsb_Y_testBit c b s _ hbs8,
        decide_eq_false (show ¬ (k - (8 - b - s - e) < b + s) from by omega)]
      simp
    have hC : (clean_left c (8 - b)).testBit k = false := by
      rw [clean_left_testBit _ _ _ (by omega)]
      have h : 8 - (8 - b) = b := by omega
      rw [h, decide_eq_false (show ¬ (k < b) from by omega)]
      simp
    have hD : (clean_right c (8 - e)).testBit k = c.testBit k := by
      rw [clean_right_testBit _ _ _ (by omega),
        decide_eq_true (show 8 - e ≤ k from hk), decide_eq_true hk8]
      simp
    rw [hA, hB, hC, hD]
    simp

/-- Bits inside the subrange of the byte: position `k` receives the bit that
sat `shiftBit` places higher (cyclically within the subrange) — i.e. the
subrange is rotated *down* by `shiftBit`.  Requires that the byte is not
subject to the sign-extension hazard (`endBit = 0` with bit 7 set). -/
theorem rotate_single_byte_testBit_in (c b e s k : Nat) (hbes : b + e + s ≤ 7)
    (hs : 1 ≤ s) (hbk : b ≤ k) (hke : k < 8 - e)
    (hsgn : e = 0 → c.testBit 7 = false) :
    (rotate_single_byte c b e s).testBit k =
      c.testBit (b + ((k - b + s) % (8 - b - e))) := by
  have he8 : e ≤ 8 := by omega
  have hbs8 : b + s ≤ 8 := by omega
  have hX256 := rsb_X_lt c b e s
  have h256 : (256 : Nat) = 2 ^ 8 := by norm_num
  have hX7 : (clean_right (clean_left c e) (b + s)).testBit 7 = false := by
    rw [rsb_X_testBit c b e s 7 he8 hbs8]
    rcases Nat.eq_zero_or_pos e with he | he
    · rw [hsgn he]
      simp
    · rw [decide_eq_false (show ¬ (7 < 8 - e) from by omega)]
      simp
  have hX128 := lt_128_of_testBit_7 hX256 hX7
  simp only [rotate_single_byte, Nat.testBit_or]
  have hC : (clean_left c (8 - b)).testBit k = false := by
    rw [clean_left_testBit _ _ _ (by omega)]
    have h : 8 - (8 - b) = b := by omega
    rw [h, decide_eq_false (show ¬ (k < b) from by omega)]
    simp
  have hD : (clean_right c (8 - e)).testBit k = false := by
    rw [clean_right_testBit _ _ _ (by omega),
      decide_eq_false (show ¬ (8 - e ≤ k) from by omega)]
    simp
  rcases Nat.lt_or_ge k (8 - e - s) with hcase | hcase
  · have hA : (asr8 (clean_right (clean_left c e) (b + s)) s).testBit k
        = c.testBit (s + k) := by
      rw [asr8_of_lt _ _ hX128, Nat.testBit_shiftRight,
        rsb_X_testBit c b e s (s + k) he8 hbs8,
        decide_eq_true (show s + k < 8 - e from by omega),
        decide_eq_true (show b + s ≤ s + k from by omega),
        decide_eq_true (show s + k < 8 from by omega)]
      simp
    have hB : ((clean_right (clean_left c (8 - (b + s))) b <<< (8 - b - s - e)) % 256).testBit k
        = false := by
      rw [h256, Nat.testBit_mod_two_pow, Nat.testBit_shiftLeft]
      by_cases hd : 8 - b - s - e ≤ k
      · rw [rsb_Y_testBit c b s _ hbs8,
          decide_eq_false (show ¬ (b ≤ k - (8 - b - s - e)) from by omega)]
        simp
      · rw [decide_eq_false (show ¬ (k ≥ 8 - b - s - e) from hd)]
        simp
    have harith : b + ((k - b + s) % (8 - b - e)) = s + k := by
      have h1 : k - b + s < 8 - b - e := by omega
      rw [Nat.mod_eq_of_lt h1]
      omega
    rw [hA, hB, hC, hD, harith]
    simp
  · have hA : (asr8 (clean_right (clean_left c e) (b + s)) s).testBit k = false := by
      rw [asr8_of_lt _ _ hX128, Nat.testBit_shiftRight,
        rsb_X_testBit c b e s (s + k) he8 hbs8,
        decide_eq_false (show ¬ (s + k < 8 - e) from by omega)]
      simp
    have hB : ((clean_right (clean_left c (8 - (b + s))) b <<< (8 - b - s - e)) % 256).testBit k
        = c.testBit (k - (8 - b - s - e)) := by
      rw [h256, Nat.testBit_mod_two_pow, Nat.testBit_shiftLeft,
        rsb_Y_testBit c b s _ hbs8,
        decide_eq_true (show k < 8 from by omega),
        decide_eq_true (show k ≥ 8 - b - s - e from by omega),
        decide_eq_true (show k - (8 - b - s - e) < b + s from by omega),
        decide_eq_true (show b ≤ k - (8 - b - s - e) from by omega),
        decide_eq_true (show k - (8 - b - s - e) < 8 from by omega)]
      simp
    have harith : b + ((k - b + s) % (8 - b - e)) = k - (8 - b - s - e) := by
      have hL : 8 - b - e ≤ k - b + s := by omega
      have h2 : k - b + s - (8 - b - e) < 8 - b - e := by omega
      rw [Nat.mod_eq_sub_mod hL, Nat.mod_eq_of_lt h2]
      omega
    rw [hA, hB, hC, hD, harith]
    simp

theorem rotate_single_byte_lt (c b e s : Nat) :
    rotate_single_byte c b e s < 256 := by
  have h256 : (256 : Nat) = 2 ^ 8 := by norm_num
  have h1 : asr8 (clean_right (clean_left c e) (b + s)) s < 256 := asr8_lt _ _
  have h2 : (clean_right (clean_left c (8 - (b + s))) b <<< (8 - b - s - e)) % 256 < 256 :=
    Nat.mod_lt _ (by norm_num)
  have h3 : clean_left c (8 - b) < 256 := by
    have := clean_left_le c (8 - b)
    omega
  have h4 : clean_right c (8 - e) < 256 := by
    have := clean_right_le c (8 - e)
    omega
  simp only [rotate_single_byte]
  rw [h256] at h1 h2 h3 h4 ⊢
  exact Nat.or_lt_two_pow (Nat.or_lt_two_pow (Nat.or_lt_two_pow h1 h2) h3) h4

/-! ### Control-flow facts about `bitarray_rotate` -/

theorem rotate_noop_of_range (ba : bitarray) (off len : Nat) (amt : Int)
    (h : off + len > ba.bit_sz) : bitarray_rotate ba off len amt = ba := by
  simp only [bitarray_rotate]
  rw [if_pos h]

theorem rotate_noop_of_len (ba : bitarray) (off len : Nat) (amt : Int)
    (h : len = 0 ∨ len = 1) : bitarray_rotate ba off len amt = ba := by
  by_cases hr : off + len > ba.bit_sz
  · exact rotate_noop_of_range ba off len amt hr
  · simp only [bitarray_rotate]
    rw [if_neg hr, if_pos h]

theorem rotate_noop_of_shift (ba : bitarray) (off len : Nat) (amt : Int)
    (h : get_shift len amt = 0) : bitarray_rotate ba off len amt = ba := by
  simp only [bitarray_rotate, h]
  simp

theorem rotate_noop_of_multibyte (ba : bitarray) (off len : Nat) (amt : Int)
    (h : off / 8 ≠ (off + len - 1) / 8) : bitarray_rotate ba off len amt = ba := by
  by_cases hr : off + len > ba.bit_sz
  · exact rotate_noop_of_range ba off len amt hr
  by_cases hl : len = 0 ∨ len = 1
  · exact rotate_noop_of_len ba off len amt hl
  by_cases hs : get_shift len amt = 0
  · exact rotate_noop_of_shift ba off len amt hs
  simp only [bitarray_rotate]
  rw [if_neg hr, if_neg hl, if_neg hs,
    if_neg (show ¬ get_char_index off = get_char_index (off + len - 1) from h)]

theorem single_byte_len_le (off len : Nat) (h2 : 2 ≤ len)
    (hsb : off / 8 = (off + len - 1) / 8) : off % 8 + len ≤ 8 := by
  omega

theorem get_end_bit_eq (off len : Nat) (h1 : 1 ≤ len) (h : off % 8 + len ≤ 8) :
    get_end_bit off len = 8 - (off % 8 + len) := by
  unfold get_end_bit
  omega

theorem cast_tmod8_toNat (m : Nat) (hm : m < 8) : ((m : Int).tmod 8).toNat = m := by
  rw [Int.tmod_eq_emod (by exact_mod_cast Nat.zero_le m) (by norm_num)]
  have h : (m : Int) % (8 : Int) = ((m % 8 : Nat) : Int) := by
    exact_mod_cast (Int.natCast_mod m 8).symm
  rw [h, Int.toNat_natCast]
  exact Nat.mod_eq_of_lt hm

/-- In the single-byte case with a non-trivial shift, `bitarray_rotate`
reduces to `rotate_single` at byte `off / 8` with shift `modulo amt len`. -/
theorem rotate_eq_rotate_single (ba : bitarray) (off len : Nat) (amt : Int)
    (h1 : off + len ≤ ba.bit_sz) (h2 : 2 ≤ len)
    (hsb : off / 8 = (off + len - 1) / 8)
    (hsnz : modulo amt len ≠ 0) :
    bitarray_rotate ba off len amt =
      rotate_single ba (off / 8) (off % 8) (get_end_bit off len)
        (modulo amt len) := by
  have hlen8 : off % 8 + len ≤ 8 := single_byte_len_le off len h2 hsb
  have hs_lt : modulo amt len < len := modulo_lt amt len (by omega)
  simp only [bitarray_rotate, get_shift_eq]
  rw [if_neg (show ¬ off + len > ba.bit_sz from by omega)]
  rw [if_neg (show ¬ (len = 0 ∨ len = 1) from by omega)]
  rw [if_neg (show ¬ ((modulo amt len : Nat) : Int) = 0 from by exact_mod_cast hsnz)]
  rw [if_pos (show get_char_index off = get_char_index (off + len - 1) from hsb)]
  rw [cast_tmod8_toNat (modulo amt len) (by omega)]
  rfl

/-! ### Frame property of the single-byte rotation path -/

theorem rotate_single_get_out (ba : bitarray) (off len s i : Nat)
    (h2 : 2 ≤ len) (hlen8 : off % 8 + len ≤ 8) (hs1 : 1 ≤ s) (hs_lt : s < len)
    (hi : i < off ∨ off + len ≤ i) :
    bitarray_get (rotate_single ba (off / 8) (off % 8) (8 - (off % 8 + len)) s) i =
      bitarray_get ba i := by
  rw [get_eq_testBit, get_eq_testBit]
  simp only [rotate_single]
  by_cases hbyte : i / 8 = off / 8
  · rcases Nat.lt_or_ge (off / 8) ba.buf.length with hl | hl
    · rw [hbyte, getD_set_self _ _ _ hl]
      apply rotate_single_byte_testBit_out
      · omega
      · omega
      · exact Nat.mod_lt _ (by norm_num)
      · rcases hi with hi | hi
        · left
          omega
        · right
          omega
    · rw [List.set_eq_of_length_le hl]
  · rw [getD_set_ne _ _ (fun hh => hbyte hh.symm)]

theorem rotate_frame (ba : bitarray) (off len : Nat) (amt : Int)
    (i : Nat) (hrange : off + len ≤ ba.bit_sz) (hi : i < off ∨ off + len ≤ i) :
    bitarray_get (bitarray_rotate ba off len amt) i = bitarray_get ba i := by
  by_cases hl : len = 0 ∨ len = 1
  · rw [rotate_noop_of_len ba off len amt hl]
  by_cases hs : modulo amt len = 0
  · rw [rotate_noop_of_shift ba off len amt (by rw [get_shift_eq, hs]; rfl)]
  by_cases hmb : off / 8 = (off + len - 1) / 8
  · have h2 : 2 ≤ len := by omega
    have hlen8 := single_byte_len_le off len h2 hmb
    rw [rotate_eq_rotate_single ba off len amt hrange h2 hmb hs,
      get_end_bit_eq off len (by omega) hlen8]
    exact rotate_single_get_out ba off len (modulo amt len) i h2 hlen8
      (by omega) (modulo_lt amt len (by omega)) hi
  · rw [rotate_noop_of_multibyte ba off len amt hmb]

/-- C5: for every bitarray, every in-range call `rotate(a, offset, length,
amount)` leaves every bit at an index outside `[offset, offset + length)`
with the value it had before the call. -/
theorem spec_c5_boundary_isolation (ba : bitarray) (off len : Nat) (amt : Int)
    (i : Nat) (hrange : off + len ≤ ba.bit_sz) (hi : i < off ∨ off + len ≤ i) :
    bitarray_get (bitarray_rotate ba off len amt) i = bitarray_get ba i :=
  rotate_frame ba off len amt i hrange hi

theorem spec_c5_witness :
    bitarray_get (bitarray_rotate (bitarray_set (bitarray_new 8) 2 true) 2 4 1) 0 =
      bitarray_get (bitarray_set (bitarray_new 8) 2 true) 0 :=
  spec_c5_boundary_isolation _ 2 4 1 0 (by decide) (Or.inl (by decide))

/-- C3: an in-range rotate call whose subrange spans more than one byte
returns with the bitarray (hence the whole buffer) unchanged, whatever the
amount — the multi-byte case of the optimized path is simply missing. -/
theorem spec_c3_multibyte_unchanged (ba : bitarray) (off len : Nat) (amt : Int)
    (_hrange : off + len ≤ ba.bit_sz) (hmb : off / 8 ≠ (off + len - 1) / 8) :
    bitarray_rotate ba off len amt = ba :=
  rotate_noop_of_multibyte ba off len amt hmb

theorem spec_c3_witness :
    bitarray_rotate (bitarray_new 16) 4 8 3 = bitarray_new 16 :=
  spec_c3_multibyte_unchanged (bitarray_new 16) 4 8 3 (by decide) (by decide)

/-- C8: rotate is a byte-for-byte no-op when the length is 0 or 1 (any
amount) and when the amount normalizes to shift 0; any integer multiple of
the length normalizes to 0. -/
theorem spec_c8_identity_rotations (ba : bitarray) (off len : Nat) (amt k : Int) :
    ((len = 0 ∨ len = 1) → bitarray_rotate ba off len amt = ba) ∧
    (get_shift len amt = 0 → bitarray_rotate ba off len amt = ba) ∧
    (1 ≤ len → get_shift len (k * (len : Int)) = 0) := by
  refine ⟨rotate_noop_of_len ba off len amt, rotate_noop_of_shift ba off len amt, ?_⟩
  intro hlen
  rw [get_shift_eq, modulo_mul_self k len (by omega)]
  rfl

theorem spec_c8_witness :
    bitarray_rotate (bitarray_set (bitarray_new 8) 1 true) 2 4 8 =
      bitarray_set (bitarray_new 8) 1 true :=
  (spec_c8_identity_rotations (bitarray_set (bitarray_new 8) 1 true) 2 4 8 2).2.1
    (by decide)

/-- C9: `get_shift` implements the mathematically-correct non-negative
modulo of the signed amount: it equals `amount mod length` (Euclidean), lies
in `[0, length)`, and sends every integer multiple of `length` to 0. -/
theorem spec_c9_normalize_shift (len : Nat) (amt : Int) (h : 1 ≤ len) :
    get_shift len amt = amt % (len : Int) ∧
    0 ≤ get_shift len amt ∧ get_shift len amt < (len : Int) ∧
    ∀ k : Int, get_shift len (k * (len : Int)) = 0 := by
  have hlen : (0 : Int) < (len : Int) := by exact_mod_cast h
  refine ⟨get_shift_eq_emod len amt (by omega), ?_, ?_, ?_⟩
  · rw [get_shift_eq_emod len amt (by omega)]
    exact Int.emod_nonneg amt (by omega)
  · rw [get_shift_eq_emod len amt (by omega)]
    exact Int.emod_lt_of_pos amt hlen
  · intro k
    rw [get_shift_eq, modulo_mul_self k len (by omega)]
    rfl

theorem spec_c9_witness :
    get_shift 5 (-7) = (-7 : Int) % ((5 : Nat) : Int) ∧
    0 ≤ get_shift 5 (-7) ∧ get_shift 5 (-7) < ((5 : Nat) : Int) ∧
    ∀ k : Int, get_shift 5 (k * ((5 : Nat) : Int)) = 0 :=
  spec_c9_normalize_shift 5 (-7) (by norm_num)

/-- C7: `bitarray_new n` allocates a zeroed buffer of `⌈n / 8⌉` bytes (0 is
a valid size), and every in-range `get` on a fresh array returns `false`. -/
theorem spec_c7_zero_init (n : Nat) :
    (bitarray_new n).bit_sz = n ∧
    (bitarray_new n).buf.length = (n + 7) / 8 ∧
    ∀ i, i < n → bitarray_get (bitarray_new n) i = false := by
  refine ⟨rfl, ?_, ?_⟩
  · show (List.replicate (n / 8 + if n % 8 = 0 then 0 else 1) (0 : Nat)).length
        = (n + 7) / 8
    rw [List.length_replicate]
    split <;> omega
  · intro i hi
    rw [get_eq_testBit]
    have h : (bitarray_new n).buf.getD (i / 8) 0 = 0 := by
      show (List.replicate (n / 8 + if n % 8 = 0 then 0 else 1) (0 : Nat)).getD
          (i / 8) 0 = 0
      rw [List.getD_eq_getElem?_getD, List.getElem?_replicate]
      split <;> split <;> rfl
    rw [h]
    exact Nat.zero_testBit _

theorem spec_c7_witness : bitarray_get (bitarray_new 13) 9 = false :=
  (spec_c7_zero_init 13).2.2 9 (by norm_num)

/-- C6: after `set(a, index, value)` with `index < bit_count`, `get` at
`index` returns `value`, and `get` at every other index is unchanged. -/
theorem spec_c6_set_get (ba : bitarray) (i : Nat) (v : Bool)
    (hwf : bitarray_wf ba) (hi : i < ba.bit_sz) :
    bitarray_get (bitarray_set ba i v) i = v ∧
    ∀ j, j ≠ i → bitarray_get (bitarray_set ba i v) j = bitarray_get ba j := by
  constructor
  · apply get_set_same
    have hlen := hwf.1
    rcases Nat.eq_zero_or_pos (ba.bit_sz % 8) with h8 | h8 <;>
      [rw [if_pos h8] at hlen; rw [if_neg (by omega)] at hlen] <;> omega
  · intro j hj
    exact get_set_other ba i v j hj

theorem spec_c6_witness :
    bitarray_get (bitarray_set (bitarray_new 16) 14 true) 14 = true ∧
    bitarray_get (bitarray_set (bitarray_new 16) 14 true) 3 =
      bitarray_get (bitarray_new 16) 3 := by
  have h := spec_c6_set_get (bitarray_new 16) 14 true (by decide) (by decide)
  exact ⟨h.1, h.2 3 (by decide)⟩

/-- C1 (evidence of the code bug): on a fresh 16-bit array with only bit 0
set, the in-range call `rotate(a, 0, 16, 1)` — whose subrange spans two
bytes — returns with the buffer unchanged, so the bit that was at index 0
is still at index 0 and index `(0 + shift) mod 16 = 1` stays clear,
contradicting the claimed rotation effect. -/
theorem spec_c1_rotate_incomplete :
    bitarray_rotate (bitarray_set (bitarray_new 16) 0 true) 0 16 1 =
      bitarray_set (bitarray_new 16) 0 true ∧
    bitarray_get (bitarray_set (bitarray_new 16) 0 true) 0 = true ∧
    bitarray_get (bitarray_rotate (bitarray_set (bitarray_new 16) 0 true) 0 16 1) 1
      = false := by
  decide

/-- C2 (evidence of the code bug): with `bit_count = 7`, the call
`rotate(a, 0, 8, 5)` violates the range precondition, yet the code returns
normally with the buffer untouched — the error is silently absorbed into a
no-op instead of being reported (the C function returns `void` and has no
error channel at all). -/
theorem spec_c2_range_error_swallowed :
    (bitarray_set (bitarray_new 7) 1 true).bit_sz < 0 + 8 ∧
    bitarray_rotate (bitarray_set (bitarray_new 7) 1 true) 0 8 5 =
      bitarray_set (bitarray_new 7) 1 true := by
  decide

/-- C4 counterexample: on the 8-bit array `0x03` the single-byte in-range
call with `offset = 0`, `length = 6`, `amount = 1` gives `0x21` under
`bitarray_rotate` but `0x06` under the reference `bitarray_rotate_old` —
the optimized path rotates in the opposite direction of the oracle. -/
theorem spec_c4_counterexample :
    0 + 6 ≤ (bitarray_set (bitarray_set (bitarray_new 8) 0 true) 1 true).bit_sz ∧
    (0 : Nat) / 8 = (0 + 6 - 1) / 8 ∧
    bitarray_rotate (bitarray_set (bitarray_set (bitarray_new 8) 0 true) 1 true)
        0 6 1 ≠
      bitarray_rotate_old (bitarray_set (bitarray_set (bitarray_new 8) 0 true) 1 true)
        0 6 1 := by
  decide

/-- C10: when `bit_count` is not a multiple of 8, every in-range `set` and
every in-range `rotate` leave the padding bits — positions `≥ bit_count
mod 8` of the final buffer byte (byte `bit_count / 8`) — unchanged. -/
theorem spec_c10_padding_preserved (ba : bitarray) (k : Nat)
    (_hpad : ba.bit_sz % 8 ≠ 0) (hk : ba.bit_sz % 8 ≤ k) (hk8 : k < 8) :
    (∀ i v, i < ba.bit_sz →
      ((bitarray_set ba i v).buf.getD (ba.bit_sz / 8) 0).testBit k =
        (ba.buf.getD (ba.bit_sz / 8) 0).testBit k) ∧
    (∀ off len amt, off + len ≤ ba.bit_sz →
      ((bitarray_rotate ba off len amt).buf.getD (ba.bit_sz / 8) 0).testBit k =
        (ba.buf.getD (ba.bit_sz / 8) 0).testBit k) := by
  constructor
  · intro i v hi
    by_cases hb : i / 8 = ba.bit_sz / 8
    · rcases Nat.lt_or_ge (i / 8) ba.buf.length with hl | hl
      · simp only [bitarray_set]
        rw [← hb, getD_set_self _ _ _ hl, bitmask_eq,
          set_byte_testBit _ _ _ _ (Nat.mod_lt _ (by norm_num)) hk8,
          if_neg (show ¬ k = i % 8 from by omega)]
      · simp only [bitarray_set]
        rw [List.set_eq_of_length_le hl]
    · simp only [bitarray_set]
      rw [getD_set_ne _ _ hb]
  · intro off len amt hrange
    have h := rotate_frame ba off len amt (8 * (ba.bit_sz / 8) + k) hrange
      (Or.inr (by omega))
    rw [get_eq_testBit, get_eq_testBit] at h
    have hdiv : (8 * (ba.bit_sz / 8) + k) / 8 = ba.bit_sz / 8 := by omega
    have hmod : (8 * (ba.bit_sz / 8) + k) % 8 = k := by omega
    rw [hdiv, hmod] at h
    exact h

theorem spec_c10_witness :
    ((bitarray_set (bitarray_new 13) 3 true).buf.getD ((bitarray_new 13).bit_sz / 8) 0).testBit 6 =
      ((bitarray_new 13).buf.getD ((bitarray_new 13).bit_sz / 8) 0).testBit 6 ∧
    ((bitarray_rotate (bitarray_new 13) 2 9 4).buf.getD ((bitarray_new 13).bit_sz / 8) 0).testBit 6 =
      ((bitarray_new 13).buf.getD ((bitarray_new 13).bit_sz / 8) 0).testBit 6 :=
  ⟨(spec_c10_padding_preserved (bitarray_new 13) 6 (by decide) (by decide)
      (by decide)).1 3 true (by decide),
   (spec_c10_padding_preserved (bitarray_new 13) 6 (by decide) (by decide)
      (by decide)).2 2 9 4 (by decide)⟩

/-! ### Structural invariants of the reference rotation -/

theorem loop_bit_sz (fuel : Nat) : ∀ (ba : bitarray) (i0 : Nat),
    (rotate_left_one_loop ba i0 fuel).bit_sz = ba.bit_sz := by
  induction fuel with
  | zero => intro ba i0; rfl
  | succ f ih =>
    intro ba i0
    simp only [rotate_left_one_loop]
    rw [ih]
    rfl

theorem loop_buf_length (fuel : Nat) : ∀ (ba : bitarray) (i0 : Nat),
    (rotate_left_one_loop ba i0 fuel).buf.length = ba.buf.length := by
  induction fuel with
  | zero => intro ba i0; rfl
  | succ f ih =>
    intro ba i0
    simp only [rotate_left_one_loop]
    rw [ih, set_buf_length]

theorem one_bit_sz (ba : bitarray) (off len : Nat) :
    (bitarray_rotate_left_one ba off len).bit_sz = ba.bit_sz := by
  simp only [bitarray_rotate_left_one, set_bit_sz]
  exact loop_bit_sz (len - 1) ba off

theorem one_buf_length (ba : bitarray) (off len : Nat) :
    (bitarray_rotate_left_one ba off len).buf.length = ba.buf.length := by
  simp only [bitarray_rotate_left_one]
  rw [set_buf_length, loop_buf_length]

theorem left_bit_sz (a : Nat) : ∀ (ba : bitarray) (off len : Nat),
    (bitarray_rotate_left ba off len a).bit_sz = ba.bit_sz := by
  induction a with
  | zero => intro ba off len; rfl
  | succ a ih =>
    intro ba off len
    simp only [bitarray_rotate_left]
    rw [ih, one_bit_sz]

theorem left_buf_length (a : Nat) : ∀ (ba : bitarray) (off len : Nat),
    (bitarray_rotate_left ba off len a).buf.length = ba.buf.length := by
  induction a with
  | zero => intro ba off len; rfl
  | succ a ih =>
    intro ba off len
    simp only [bitarray_rotate_left]
    rw [ih, one_buf_length]

/-! ### Per-bit behaviour of the reference rotation -/

theorem get_rotate_left_one_loop (fuel : Nat) :
    ∀ (ba : bitarray) (i0 p : Nat), i0 + fuel ≤ 8 * ba.buf.length →
      bitarray_get (rotate_left_one_loop ba i0 fuel) p =
        if i0 ≤ p ∧ p < i0 + fuel then bitarray_get ba (p + 1)
        else bitarray_get ba p := by
  induction fuel with
  | zero =>
    intro ba i0 p h
    rw [if_neg (by omega)]
    rfl
  | succ f ih =>
    intro ba i0 p h
    simp only [rotate_left_one_loop]
    rw [ih (bitarray_set ba i0 (bitarray_get ba (i0 + 1))) (i0 + 1) p
      (by rw [set_buf_length]; omega)]
    by_cases h1 : i0 + 1 ≤ p ∧ p < i0 + 1 + f
    · rw [if_pos h1, if_pos (by omega), get_set_other _ _ _ _ (by omega)]
    · rw [if_neg h1]
      by_cases h2 : p = i0
      · subst h2
        rw [get_set_same _ _ _ (by omega), if_pos (by omega)]
      · rw [get_set_other _ _ _ _ h2, if_neg (by omega)]

theorem get_rotate_left_one (ba : bitarray) (off len p : Nat)
    (hlen : 1 ≤ len) (h : off + len ≤ 8 * ba.buf.length) :
    bitarray_get (bitarray_rotate_left_one ba off len) p =
      if off ≤ p ∧ p < off + len then
        (if p + 1 < off + len then bitarray_get ba (p + 1) else bitarray_get ba off)
      else bitarray_get ba p := by
  simp only [bitarray_rotate_left_one]
  by_cases hp : p = off + len - 1
  · subst hp
    rw [get_set_same _ _ _ (by rw [loop_buf_length]; omega)]
    rw [if_pos (by omega), if_neg (by omega)]
  · rw [get_set_other _ _ _ _ hp,
      get_rotate_left_one_loop (len - 1) ba off p (by omega)]
    by_cases h1 : off ≤ p ∧ p < off + (len - 1)
    · rw [if_pos h1, if_pos (by omega), if_pos (by omega)]
    · rw [if_neg h1, if_neg (by omega)]

theorem get_rotate_left (a : Nat) :
    ∀ (ba : bitarray) (off len p : Nat), 1 ≤ len →
      off + len ≤ 8 * ba.buf.length →
      bitarray_get (bitarray_rotate_left ba off len a) p =
        if off ≤ p ∧ p < off + len then
          bitarray_get ba (off + ((p - off + a) % len))
        else bitarray_get ba p := by
  induction a with
  | zero =>
    intro ba off len p hlen h
    by_cases h1 : off ≤ p ∧ p < off + len
    · have he : off + ((p - off + 0) % len) = p := by
        rw [Nat.add_zero, Nat.mod_eq_of_lt (by omega)]
        omega
      rw [if_pos h1, he]
      rfl
    · rw [if_neg h1]
      rfl
  | succ a ih =>
    intro ba off len p hlen h
    simp only [bitarray_rotate_left]
    rw [ih (bitarray_rotate_left_one ba off len) off len p hlen
      (by rw [one_buf_length]; omega)]
    by_cases h1 : off ≤ p ∧ p < off + len
    · rw [if_pos h1]
      have hr : (p - off + a) % len < len := Nat.mod_lt _ (by omega)
      rw [get_rotate_left_one ba off len (off + ((p - off + a) % len)) hlen h,
        if_pos (by omega)]
      have hkey : (p - off + (a + 1)) % len = ((p - off + a) % len + 1) % len := by
        rw [Nat.mod_add_mod]
        congr 1
      by_cases h2 : (p - off + a) % len + 1 < len
      · rw [if_pos (by omega), hkey, Nat.mod_eq_of_lt h2, if_pos h1]
        congr 1
      · have hone : (p - off + a) % len + 1 = len := by omega
        rw [if_neg (by omega), hkey, hone, Nat.mod_self, Nat.add_zero, if_pos h1]
    · rw [if_neg h1]
      rw [get_rotate_left_one ba off len p hlen h, if_neg h1, if_neg h1]

/-! ### Byte-level stability of the reference rotation -/

theorem set_getD_ne (ba : bitarray) (i : Nat) (v : Bool) (j : Nat)
    (h : j ≠ i / 8) :
    (bitarray_set ba i v).buf.getD j 0 = ba.buf.getD j 0 := by
  simp only [bitarray_set]
  exact getD_set_ne _ _ (fun hh => h hh.symm)

theorem set_getD_lt (ba : bitarray) (i : Nat) (v : Bool) (j : Nat)
    (h : ba.buf.getD j 0 < 256) :
    (bitarray_set ba i v).buf.getD j 0 < 256 := by
  by_cases hj : j = i / 8
  · subst hj
    rcases Nat.lt_or_ge (i / 8) ba.buf.length with hl | hl
    · simp only [bitarray_set]
      rw [getD_set_self _ _ _ hl]
      have hm : bitmask i < 256 ∧ 255 ^^^ bitmask i < 256 := by
        rw [bitmask_eq]
        have hh : ∀ m, m < 8 → 2 ^ m < 256 ∧ 255 ^^^ 2 ^ m < 256 := by decide
        exact hh (i % 8) (Nat.mod_lt _ (by norm_num))
      have h256 : (256 : Nat) = 2 ^ 8 := by norm_num
      have h1 : ba.buf.getD (i / 8) 0 &&& (255 ^^^ bitmask i) < 256 := by
        have hx : ba.buf.getD (i / 8) 0 &&& (255 ^^^ bitmask i) ≤ 255 ^^^ bitmask i :=
          Nat.and_le_right
        omega
      have h2 : (if v then bitmask i else 0) < 256 := by
        split <;> omega
      rw [h256] at h1 h2 ⊢
      exact Nat.or_lt_two_pow h1 h2
    · simp only [bitarray_set]
      rw [List.set_eq_of_length_le hl]
      exact h
  · rw [set_getD_ne ba i v j hj]
    exact h

theorem loop_getD_ne (fuel : Nat) : ∀ (ba : bitarray) (i0 j : Nat),
    (∀ t, i0 ≤ t → t < i0 + fuel → t / 8 ≠ j) →
    (rotate_left_one_loop ba i0 fuel).buf.getD j 0 = ba.buf.getD j 0 := by
  induction fuel with
  | zero => intro ba i0 j h; rfl
  | succ f ih =>
    intro ba i0 j h
    simp only [rotate_left_one_loop]
    rw [ih _ (i0 + 1) j (fun t h1 h2 => h t (by omega) (by omega)),
      set_getD_ne ba i0 _ j (Ne.symm (h i0 (by omega) (by omega)))]

theorem one_getD_ne (ba : bitarray) (off len j : Nat) (hlen : 1 ≤ len)
    (h : ∀ t, off ≤ t → t < off + len → t / 8 ≠ j) :
    (bitarray_rotate_left_one ba off len).buf.getD j 0 = ba.buf.getD j 0 := by
  simp only [bitarray_rotate_left_one]
  rw [set_getD_ne _ _ _ _ (Ne.symm (h (off + len - 1) (by omega) (by omega)))]
  exact loop_getD_ne (len - 1) ba off j (fun t h1 h2 => h t (by omega) (by omega))

theorem left_getD_ne (a : Nat) : ∀ (ba : bitarray) (off len j : Nat), 1 ≤ len →
    (∀ t, off ≤ t → t < off + len → t / 8 ≠ j) →
    (bitarray_rotate_left ba off len a).buf.getD j 0 = ba.buf.getD j 0 := by
  induction a with
  | zero => intro ba off len j hlen h; rfl
  | succ a ih =>
    intro ba off len j hlen h
    simp only [bitarray_rotate_left]
    rw [ih _ off len j hlen h, one_getD_ne ba off len j hlen h]

theorem loop_getD_lt (fuel : Nat) : ∀ (ba : bitarray) (i0 j : Nat),
    ba.buf.getD j 0 < 256 →
    (rotate_left_one_loop ba i0 fuel).buf.getD j 0 < 256 := by
  induction fuel with
  | zero => intro ba i0 j h; exact h
  | succ f ih =>
    intro ba i0 j h
    simp only [rotate_left_one_loop]
    exact ih _ (i0 + 1) j (set_getD_lt ba i0 _ j h)

theorem one_getD_lt (ba : bitarray) (off len j : Nat)
    (h : ba.buf.getD j 0 < 256) :
    (bitarray_rotate_left_one ba off len).buf.getD j 0 < 256 := by
  simp only [bitarray_rotate_left_one]
  exact set_getD_lt _ _ _ _ (loop_getD_lt (len - 1) ba off j h)

theorem left_getD_lt (a : Nat) : ∀ (ba : bitarray) (off len j : Nat),
    ba.buf.getD j 0 < 256 →
    (bitarray_rotate_left ba off len a).buf.getD j 0 < 256 := by
  induction a with
  | zero => intro ba off len j h; exact h
  | succ a ih =>
    intro ba off len j h
    simp only [bitarray_rotate_left]
    exact ih _ off len j (one_getD_lt ba off len j h)

theorem getD_eq_getElem (l : List Nat) (n : Nat) (h : n < l.length) :
    l.getD n 0 = l[n] := by
  rw [List.getD_eq_getElem?_getD, List.getElem?_eq_getElem h]
  rfl

theorem bitarray_ext (x y : bitarray) (h1 : x.bit_sz = y.bit_sz)
    (h2 : x.buf = y.buf) : x = y := by
  cases x
  cases y
  simp_all

theorem wf_getD_lt (ba : bitarray) (hwf : bitarray_wf ba) (j : Nat) :
    ba.buf.getD j 0 < 256 := by
  rcases Nat.lt_or_ge j ba.buf.length with hj | hj
  · rw [getD_eq_getElem _ j hj]
    exact hwf.2 _ (List.getElem_mem hj)
  · rw [List.getD_eq_default _ _ hj]
    norm_num

theorem modulo_one (n : Int) : modulo n 1 = 0 := by
  unfold modulo
  rw [Nat.cast_one, Int.tmod_one]
  rfl

theorem wf_size_le (ba : bitarray) (hwf : bitarray_wf ba) :
    ba.bit_sz ≤ 8 * ba.buf.length := by
  have h := hwf.1
  rcases Nat.eq_zero_or_pos (ba.bit_sz % 8) with h8 | h8
  · rw [if_pos h8] at h
    omega
  · rw [if_neg (by omega)] at h
    omega

/-- C4 (amended): for a subrange lying within a single byte — and provided
the subrange does not end flush at a byte boundary with its last bit set
(there the optimized path corrupts the byte through a signed-`char`
arithmetic right shift) — `bitarray_rotate` with amount `amt` produces
exactly the buffer that the reference `bitarray_rotate_old` produces with
the *negated* amount `-amt`: the optimized path rotates in the direction
opposite to the oracle's. -/
theorem spec_c4_amended (ba : bitarray) (off len : Nat) (amt : Int)
    (hwf : bitarray_wf ba) (hrange : off + len ≤ ba.bit_sz)
    (hsb : off / 8 = (off + len - 1) / 8)
    (hsgn : (off + len) % 8 ≠ 0 ∨ bitarray_get ba (off + len - 1) = false) :
    bitarray_rotate ba off len amt = bitarray_rotate_old ba off len (-amt) := by
  have hlen8 : ba.bit_sz ≤ 8 * ba.buf.length := wf_size_le ba hwf
  by_cases hl0 : len = 0
  · subst hl0
    rw [rotate_noop_of_len ba off 0 amt (Or.inl rfl)]
    simp only [bitarray_rotate_old]
    simp
  by_cases hl1 : len = 1
  · subst hl1
    rw [rotate_noop_of_len ba off 1 amt (Or.inr rfl)]
    simp only [bitarray_rotate_old]
    rw [if_neg (by omega), modulo_one]
    rfl
  by_cases hs0 : modulo amt len = 0
  · rw [rotate_noop_of_shift ba off len amt (by rw [get_shift_eq, hs0]; rfl)]
    simp only [bitarray_rotate_old]
    rw [if_neg hl0, neg_neg, hs0]
    rfl
  have h2 : 2 ≤ len := by omega
  have hb8 : off % 8 + len ≤ 8 := single_byte_len_le off len h2 hsb
  have hslt : modulo amt len < len := modulo_lt amt len (by omega)
  have hs1 : 1 ≤ modulo amt len := by omega
  rw [rotate_eq_rotate_single ba off len amt hrange h2 hsb hs0]
  have hold : bitarray_rotate_old ba off len (-amt) =
      bitarray_rotate_left ba off len (modulo amt len) := by
    simp only [bitarray_rotate_old]
    rw [if_neg hl0, neg_neg]
  rw [hold]
  have hq : off / 8 < ba.buf.length := by omega
  have hsgn' : 8 - (off % 8 + len) = 0 →
      (ba.buf.getD (off / 8) 0).testBit 7 = false := by
    intro he0
    rcases hsgn with hmod8 | hlast
    · exfalso
      apply hmod8
      omega
    · rw [get_eq_testBit] at hlast
      have hd : (off + len - 1) / 8 = off / 8 := hsb.symm
      have hm : (off + len - 1) % 8 = 7 := by omega
      rw [hd, hm] at hlast
      exact hlast
  apply bitarray_ext
  · rw [left_bit_sz]
    rfl
  · apply List.ext_getElem
    · show (ba.buf.set (off / 8) _).length = _
      rw [List.length_set, left_buf_length]
    · intro n h1 h2'
      rw [← getD_eq_getElem _ n h1, ← getD_eq_getElem _ n h2']
      by_cases hn : n = off / 8
      · subst hn
        show (ba.buf.set (off / 8) _).getD (off / 8) 0 = _
        rw [getD_set_self _ _ _ hq, get_end_bit_eq off len (by omega) hb8]
        apply Nat.eq_of_testBit_eq
        intro k
        rcases Nat.lt_or_ge k 8 with hk8 | hk8
        · have hp := get_rotate_left (modulo amt len) ba off len
            (8 * (off / 8) + k) (by omega) (by omega)
          rw [get_eq_testBit] at hp
          have hpd : (8 * (off / 8) + k) / 8 = off / 8 := by omega
          have hpm : (8 * (off / 8) + k) % 8 = k := by omega
          rw [hpd, hpm] at hp
          by_cases hin : off % 8 ≤ k ∧ k < off % 8 + len
          · rw [rotate_single_byte_testBit_in _ _ _ _ k (by omega) hs1
              (by omega) (by omega) hsgn']
            have hLm : 8 - off % 8 - (8 - (off % 8 + len)) = len := by omega
            rw [hLm]
            rw [hp, if_pos (by omega)]
            have hrmod : (8 * (off / 8) + k - off + modulo amt len) % len =
                (k - off % 8 + modulo amt len) % len := by
              congr 1
              omega
            rw [get_eq_testBit, hrmod]
            have hmlt : (k - off % 8 + modulo amt len) % len < len :=
              Nat.mod_lt _ (by omega)
            have hqd : (off + (k - off % 8 + modulo amt len) % len) / 8 = off / 8 := by
              omega
            have hqm : (off + (k - off % 8 + modulo amt len) % len) % 8 =
                off % 8 + (k - off % 8 + modulo amt len) % len := by
              omega
            rw [hqd, hqm]
          · rw [rotate_single_byte_testBit_out _ _ _ _ k (by omega) hs1 hk8
              (by omega)]
            rw [hp, if_neg (by omega), get_eq_testBit, hpd, hpm]
        · have hlhs : (rotate_single_byte (ba.buf.getD (off / 8) 0) (off % 8)
              (8 - (off % 8 + len)) (modulo amt len)).testBit k = false := by
            apply Nat.testBit_lt_two_pow
            calc rotate_single_byte _ _ _ _ < 256 := rotate_single_byte_lt _ _ _ _
              _ = 2 ^ 8 := by norm_num
              _ ≤ 2 ^ k := Nat.pow_le_pow_right (by norm_num) hk8
          have hrhs : ((bitarray_rotate_left ba off len
              (modulo amt len)).buf.getD (off / 8) 0).testBit k = false := by
            apply Nat.testBit_lt_two_pow
            calc (bitarray_rotate_left ba off len (modulo amt len)).buf.getD
                  (off / 8) 0 < 256 :=
                left_getD_lt _ ba off len _ (wf_getD_lt ba hwf _)
              _ = 2 ^ 8 := by norm_num
              _ ≤ 2 ^ k := Nat.pow_le_pow_right (by norm_num) hk8
          rw [hlhs, hrhs]
      · show (ba.buf.set (off / 8) _).getD n 0 = _
        rw [getD_set_ne _ _ (fun hh => hn hh.symm),
          left_getD_ne _ ba off len n (by omega) (fun t ht1 ht2 => by omega)]

theorem spec_c4_witness :
    bitarray_rotate (bitarray_set (bitarray_set (bitarray_new 8) 0 true) 1 true)
        0 6 1 =
      bitarray_rotate_old (bitarray_set (bitarray_set (bitarray_new 8) 0 true) 1 true)
        0 6 (-1) :=
  spec_c4_amended (bitarray_set (bitarray_set (bitarray_new 8) 0 true) 1 true)
    0 6 1 (by decide) (by decide) (by decide) (Or.inl (by decide))
